/-
  Verification of the Claude chat-export processor against its
  natural-language specification.

  The development shallowly embeds the relevant JavaScript modules:
  * BaseRepository (src/repositories, bundled in background.js):
    the generic uuid-keyed record store (findAll / findByUuid / count /
    insert / update / delete / exists / upsert).
  * AppController.storeData: the per-conversation incremental-sync decision.
  * AppController.generateMarkdownFiles: render-time skip, per-conversation
    error confinement, and output-filename generation.
  * ZipProcessor.process: archive entry lookup and the missing-file /
    parse-error failure modes.
  * MarkdownGenerator.getTitle and MarkdownGenerator.processText.

  JavaScript objects with a known field set are modelled as structures with
  Option-valued fields (none = the field is absent); `{...a, ...b}` object
  spread becomes a field-wise `Option.orElse`.  JavaScript strings are
  modelled as Lean strings over their character lists (the sources only ever
  index whole characters).  Falsiness of a string field is emptiness or
  absence; falsiness of the `processed` flag is `none` or `some false`.
-/
import Mathlib

namespace ClaudeExport

/-- The backtick character, written by code point to keep source lines plain. -/
def btick : Char := Char.ofNat 96

/-! ## Records and the object-spread merge

A stored conversation (or user / project) record.  Fields are the ones the
program ever reads or writes on these objects; every field is optional,
mirroring dynamic JS objects. -/

/-- One chat message, with the fields the program reads (`sender`, `text`,
`created_at`); structured `content` items and attachments are carried
opaquely as far as the verified claims are concerned. -/
structure Msg where
  uuid : Option String := none
  sender : Option String := none
  created_at : Option String := none
  text : Option String := none
deriving DecidableEq, Repr

/-- A conversation / user / project record as the store keeps it. -/
structure Rec where
  uuid : Option String := none
  name : Option String := none
  created_at : Option String := none
  updated_at : Option String := none
  accountUuid : Option String := none
  chat_messages : Option (List Msg) := none
  processed : Option Bool := none
  markdownPath : Option String := none
deriving DecidableEq, Repr

/-- JS truthiness of an optional string field (`undefined` and `""` are falsy). -/
def truthyStr : Option String → Bool
  | none => false
  | some s => !(s = "")

/-- JS truthiness of the optional `processed` flag. -/
def truthyBool : Option Bool → Bool
  | none => false
  | some b => b

/-- `{...e, ...p}`: fields present in the partial record `p` overwrite, fields
absent in `p` are preserved from `e` (BaseRepository.update's shallow merge). -/
def mergeRec (e p : Rec) : Rec where
  uuid := p.uuid.orElse (fun _ => e.uuid)
  name := p.name.orElse (fun _ => e.name)
  created_at := p.created_at.orElse (fun _ => e.created_at)
  updated_at := p.updated_at.orElse (fun _ => e.updated_at)
  accountUuid := p.accountUuid.orElse (fun _ => e.accountUuid)
  chat_messages := p.chat_messages.orElse (fun _ => e.chat_messages)
  processed := p.processed.orElse (fun _ => e.processed)
  markdownPath := p.markdownPath.orElse (fun _ => e.markdownPath)

/-! ## BaseRepository

A collection is its in-memory array `this.db.data[collection]`; the
write-through `db.write()` persists the same list and is invisible to the
collection-level contract, so the operations are functions on `List Rec`. -/

/-- `findAll()`. -/
def findAll (st : List Rec) : List Rec := st

/-- `findByUuid(uuid)`: first record whose `uuid` field equals the key. -/
def findByUuid (st : List Rec) (key : Option String) : Option Rec :=
  st.find? (fun e => e.uuid == key)

/-- `count()`. -/
def countRecs (st : List Rec) : Nat := st.length

/-- `insert(item)`: unconditional push. -/
def insert (st : List Rec) (item : Rec) : List Rec := st ++ [item]

/-- `exists(uuid)` (named `existsUuid` because `exists` is a Lean keyword). -/
def existsUuid (st : List Rec) (key : Option String) : Bool :=
  st.any (fun e => e.uuid == key)

/-- `update(uuid, updates)`: shallow-merge into the first record whose `uuid`
matches; no-op when the key is absent. -/
def update : List Rec → Option String → Rec → List Rec
  | [], _, _ => []
  | e :: t, key, p =>
    if e.uuid == key then mergeRec e p :: t else e :: update t key p

/-- `delete(uuid)`: splice out the first record whose `uuid` matches. -/
def delete : List Rec → Option String → List Rec
  | [], _ => []
  | e :: t, key => if e.uuid == key then t else e :: delete t key

/-- `upsert(item)`: `update` when a record with the item's uuid exists,
else `insert`. -/
def upsert (st : List Rec) (item : Rec) : List Rec :=
  if existsUuid st item.uuid then update st item.uuid item else insert st item

/-- The collection invariant of the spec: stored `uuid` values are pairwise
distinct. -/
def uuidsDistinct (st : List Rec) : Prop := (st.map Rec.uuid).Nodup

instance (st : List Rec) : Decidable (uuidsDistinct st) := by
  unfold uuidsDistinct; infer_instance

/-! ## Sync engine (AppController.storeData, per conversation) -/

/-- The ingestion-time decision of AppController.storeData:
`this.force || !existing || !existing.processed ||
 existing.updated_at !== conversation.updated_at`. -/
def shouldProcess (force : Bool) (existing : Option Rec) (c : Rec) : Bool :=
  force ||
    match existing with
    | none => true
    | some e => !truthyBool e.processed || !(e.updated_at == c.updated_at)

/-- One iteration of the conversation loop in storeData: skip invalid records
(missing uuid), otherwise decide and upsert.  Returns the new store and
whether the conversation was processed (upserted). -/
def storeConvStep (force : Bool) (st : List Rec) (c : Rec) : List Rec × Bool :=
  if !truthyStr c.uuid then (st, false)
  else
    let existing := findByUuid st c.uuid
    if shouldProcess force existing c then (upsert st c, true) else (st, false)

/-! ## Render phase (AppController.generateMarkdownFiles) -/

/-- The render-time skip test: `!this.force && conversation.processed &&
conversation.markdownPath`. -/
def shouldSkipRender (force : Bool) (c : Rec) : Bool :=
  !force && truthyBool c.processed && truthyStr c.markdownPath

/-- The partial record written back after a successful render:
`{processed: true, markdownPath: outputPath}`. -/
def renderedPatch (outputPath : String) : Rec :=
  { processed := some true, markdownPath := some outputPath }

/-- One iteration of the loop in generateMarkdownFiles.  `attempt c` abstracts
the fallible body of the try-block (markdown generation, filename creation and
the file write): `some outputPath` when it completes, `none` when any of it
throws, in which case the catch-branch leaves the store untouched. -/
def renderStep (force : Bool) (attempt : Rec → Option String)
    (st : List Rec) (c : Rec) : List Rec :=
  if shouldSkipRender force c then st
  else
    match attempt c with
    | some out => update st c.uuid (renderedPatch out)
    | none => st

/-- The render phase: iterate the loop body over the snapshot of stored
conversations taken by `findAll()` at entry, threading the store. -/
def renderPhase (force : Bool) (attempt : Rec → Option String)
    (st : List Rec) : List Rec :=
  (findAll st).foldl (renderStep force attempt) st

/-! ## ZipProcessor.process

An archive handle is the list of its entries; each entry carries its name and
the outcome of parsing its extracted bytes as a JSON array (`Except.error m`
is the underlying parser's failure message).  `extractAllTo` plus re-reading
from the scratch directory is invisible at this level: the entry's parse
outcome stands for the content at `path.join(tempDir, entry.entryName)`. -/

/-- `pat` occurs as a contiguous substring of `l` (JS `String.includes`). -/
def listIncl : List Char → List Char → Bool
  | pat, [] => pat.isEmpty
  | pat, c :: t => pat.isPrefixOf (c :: t) || listIncl pat t

/-- JS `s.includes(pat)`. -/
def strIncl (s pat : String) : Bool := listIncl pat.data s.data

/-- Decidable equality for parse outcomes, for concrete witnesses. -/
instance : DecidableEq (Except String (List Rec)) := fun a b =>
  match a, b with
  | .ok x, .ok y =>
    if h : x = y then isTrue (by rw [h]) else
      isFalse (by intro he; cases he; exact h rfl)
  | .ok _, .error _ => isFalse (by intro h; cases h)
  | .error _, .ok _ => isFalse (by intro h; cases h)
  | .error x, .error y =>
    if h : x = y then isTrue (by rw [h]) else
      isFalse (by intro he; cases he; exact h rfl)

/-- One archive entry. -/
structure ZipEntry where
  entryName : String
  parsedArray : Except String (List Rec)
deriving DecidableEq, Repr

/-- The failure modes of ZipProcessor.process. -/
inductive ZipError where
  | missingConversationsFile : ZipError
  | jsonError (msg : String) : ZipError
  | readError (msg : String) : ZipError
deriving DecidableEq, Repr

/-- The message of the error `process` rejects with; the outer catch re-wraps
every failure as "Failed to process zip file: " plus the inner message. -/
def zipErrorMessage : ZipError → String
  | .missingConversationsFile =>
      "Failed to process zip file: Missing conversations.json file in the zip archive"
  | .jsonError m => "Failed to process zip file: Error parsing JSON: " ++ m
  | .readError m => "Failed to process zip file: Error reading file: " ++ m

/-- `processJsonFile`: direct parse of a small optional collection; any
failure (or a non-array document) degrades to an empty collection. -/
def processJsonFile (e : ZipEntry) : List Rec :=
  match e.parsedArray with
  | .ok l => l
  | .error _ => []

/-- The result record of ZipProcessor.process. -/
structure ProcessResult where
  users : List Rec
  projects : List Rec
  conversations : List Rec
deriving Repr

/-- ZipProcessor.process: locate entries by substring match on the entry name,
fail when the conversations entry is absent, stream-parse conversations
(malformed JSON is fatal), direct-parse the optional collections. -/
def process (entries : List ZipEntry) : Except ZipError ProcessResult :=
  let conversationsEntry := entries.find? (fun e => strIncl e.entryName "conversations.json")
  let usersEntry := entries.find? (fun e => strIncl e.entryName "users.json")
  let projectsEntry := entries.find? (fun e => strIncl e.entryName "projects.json")
  match conversationsEntry with
  | none => .error .missingConversationsFile
  | some ce =>
    let users := match usersEntry with
      | some e => processJsonFile e
      | none => []
    let projects := match projectsEntry with
      | some e => processJsonFile e
      | none => []
    match ce.parsedArray with
    | .error m => .error (.jsonError m)
    | .ok conversations => .ok ⟨users, projects, conversations⟩

/-! ## MarkdownGenerator.getTitle -/

/-- The whitespace set JS `String.prototype.trim` removes: the WhiteSpace
code points (TAB, VT, FF, SP, NBSP, OGHAM SPACE, the U+2000-200A spaces,
NARROW NBSP, MMSP, IDEOGRAPHIC SPACE, ZWNBSP) and the LineTerminator code
points (LF, CR, LS, PS), given by code point. -/
def isJsSpace (c : Char) : Bool :=
  decide (c.toNat = 0x9 ∨ c.toNat = 0xA ∨ c.toNat = 0xB ∨ c.toNat = 0xC ∨
    c.toNat = 0xD ∨ c.toNat = 0x20 ∨ c.toNat = 0xA0 ∨ c.toNat = 0x1680 ∨
    (0x2000 ≤ c.toNat ∧ c.toNat ≤ 0x200A) ∨ c.toNat = 0x2028 ∨
    c.toNat = 0x2029 ∨ c.toNat = 0x202F ∨ c.toNat = 0x205F ∨
    c.toNat = 0x3000 ∨ c.toNat = 0xFEFF)

/-- JS `s.trim()`. -/
def jsTrim (s : String) : String :=
  ⟨((s.data.dropWhile isJsSpace).reverse.dropWhile isJsSpace).reverse⟩

/-- JS `s.split("\n")[0]`. -/
def firstLineOf (s : String) : String := ⟨s.data.takeWhile (fun c => !(c = '\n'))⟩

/-- Template-literal rendering of a possibly-undefined string field. -/
def showOpt : Option String → String
  | some s => s
  | none => "undefined"

/-- The fallback branches of getTitle when the name is absent or blank: the
trimmed first line of a truthy, non-blank first-message text (ellipsized past
50 characters), else "Conversation " plus the uuid. -/
def getTitleFromMessages (c : Rec) : String :=
  match c.chat_messages with
  | some (m :: _) =>
    (match m.text with
     | some t =>
       if !(t = "") && !(jsTrim t = "") then
         let firstLine := jsTrim (firstLineOf t)
         if firstLine.length > 50 then ⟨firstLine.data.take 50⟩ ++ "..."
         else firstLine
       else "Conversation " ++ showOpt c.uuid
     | none => "Conversation " ++ showOpt c.uuid)
  | _ => "Conversation " ++ showOpt c.uuid

/-- MarkdownGenerator.getTitle: the name when it is truthy and non-blank
(`conversation.name && conversation.name.trim()`), else the first-message /
uuid fallbacks. -/
def getTitle (c : Rec) : String :=
  match c.name with
  | some n =>
    if !(n = "") && !(jsTrim n = "") then n else getTitleFromMessages c
  | none => getTitleFromMessages c

/-! ## MarkdownGenerator.processText

`processText` rewrites every match of the JS regular expression
/三backticks(\w*)([\s\S]*?)三backticks/g (written here without literal
backticks) by trimming one leading and one trailing newline from the lazily
matched code span and reinstating a canonical fence.  `findFence` performs the
regex engine's scan for the next fence opening: the earliest position where
three consecutive backticks occur; laziness of the inner span means the
closing fence is likewise the earliest such position.  A fence opening whose
remainder holds no closing fence can never be completed from any later start
either (the language class \w excludes the backtick), which the lemmas below
make precise, so the engine leaves the remaining text unchanged. -/

/-- JS \w (the regex has no /u flag, so exactly [A-Za-z0-9_]). -/
def isWordChar (c : Char) : Bool :=
  decide ((65 ≤ c.toNat ∧ c.toNat ≤ 90) ∨ (97 ≤ c.toNat ∧ c.toNat ≤ 122) ∨
    (48 ≤ c.toNat ∧ c.toNat ≤ 57) ∨ c.toNat = 95)

/-- JS whitespace for `String.trim` on the captured language tag; the capture
is all \w characters, so the trim is a provable no-op, but it is kept to
mirror `language.trim()` in the source. -/
def trimLang (l : List Char) : List Char :=
  (l.dropWhile isJsSpace).reverse.dropWhile isJsSpace |>.reverse

/-- Split at the first occurrence of three consecutive backticks:
`some (before, after)` with the three backticks removed. -/
def findFence : List Char → Option (List Char × List Char)
  | [] => none
  | c :: cs =>
    if c = btick ∧ cs.take 2 = [btick, btick] then some ([], cs.drop 2)
    else
      match findFence cs with
      | some (p, r) => some (c :: p, r)
      | none => none

/-- Drop exactly one leading newline, then exactly one trailing newline
(the two conditional `substring` calls of the replacement callback). -/
def trimCode (code : List Char) : List Char :=
  let c1 := if code.head? = some '\n' then code.tail else code
  if c1.getLast? = some '\n' then c1.dropLast else c1

/-- The replacement template: fence, language, newline, code, newline, fence. -/
def fenceBlock (lang code : List Char) : List Char :=
  [btick, btick, btick] ++ lang ++ '\n' :: code ++ '\n' :: [btick, btick, btick]

/-- Length bookkeeping for the recursion of `replaceCodeBlocks`. -/
theorem findFence_length {cs p r : List Char} (h : findFence cs = some (p, r)) :
    cs.length = p.length + 3 + r.length := by
  induction cs generalizing p r with
  | nil => simp [findFence] at h
  | cons c cs ih =>
    by_cases hc : c = btick ∧ cs.take 2 = [btick, btick]
    · simp only [findFence, if_pos hc] at h
      obtain ⟨rfl, rfl⟩ := Prod.mk.injEq .. ▸ Option.some.injEq .. ▸ h
      have h2 : 2 ≤ cs.length := by
        have := congrArg List.length hc.2
        simp at this
        omega
      simp [List.length_drop]
      omega
    · simp only [findFence, if_neg hc] at h
      cases hf : findFence cs with
      | none => rw [hf] at h; exact absurd h (by simp)
      | some pr =>
        obtain ⟨p0, r0⟩ := pr
        rw [hf] at h
        simp at h
        obtain ⟨h1, rfl⟩ := h
        have := ih hf
        subst h1
        simp at this ⊢
        omega

/-- The global replace of MarkdownGenerator.processText over the character
list: normalize each fenced span in turn and continue after it. -/
def replaceCodeBlocks (cs : List Char) : List Char :=
  match h1 : findFence cs with
  | none => cs
  | some (pre, rest) =>
    let lang := rest.takeWhile isWordChar
    let rest1 := rest.dropWhile isWordChar
    match h2 : findFence rest1 with
    | none => cs
    | some (code, rest2) =>
      pre ++ fenceBlock (trimLang lang) (trimCode code) ++ replaceCodeBlocks rest2
termination_by cs.length
decreasing_by
  have e1 := findFence_length h1
  have e2 := findFence_length h2
  have e3 : rest1.length ≤ rest.length := (List.dropWhile_sublist isWordChar).length_le
  omega

/-- MarkdownGenerator.processText (the `!text` guard returns the falsy input
unchanged, which on strings is the identity on `""`). -/
def processText (s : String) : String :=
  if s = "" then "" else ⟨replaceCodeBlocks s.data⟩

/-! ## Output filename (AppController.generateMarkdownFiles)

`new Date(conversation.created_at || new Date()).toISOString()` is modelled
for the canonical UTC timestamps of the export format: `parseIsoUtc` accepts
exactly `YYYY-MM-DDTHH:MM:SSZ` (the shape in the archive and in the
repository's tests), and `dateToIso` renders the round-tripped instant the
way `toISOString` does (millisecond field zero).  A present `created_at`
outside the modelled shape corresponds to a `toISOString` failure and yields
`none`.  JS string lengths and `substring`/`slice` act on UTF-16 units; the
strings here are ASCII, where units and characters coincide. -/

/-- A calendar instant as toISOString exposes it. -/
structure DateTime where
  year : Nat
  month : Nat
  day : Nat
  hour : Nat
  minute : Nat
  second : Nat
deriving DecidableEq, Repr

/-- Decimal digit test by code point (ASCII 48-57). -/
def isDig (c : Char) : Bool := decide (48 ≤ c.toNat ∧ c.toNat ≤ 57)

/-- Value of a decimal digit character. -/
def digVal (c : Char) : Nat := c.toNat - 48

/-- One or more decimal digits closed by `Z`. -/
def digitsThenZ : List Char → Bool
  | [] => false
  | ['Z'] => true
  | c :: rest => isDig c && digitsThenZ rest

/-- The tail after the seconds: `Z`, or a fractional part `.` with one or
more digits and then `Z`.  The parsed sub-second digits carry no value in the
model: `slice(0, 15)` cuts the compacted timestamp before the fraction, so no
observed output depends on them. -/
def fracTailZ : List Char → Bool
  | ['Z'] => true
  | '.' :: c :: rest => isDig c && digitsThenZ rest
  | _ => false

/-- Parse the UTC export timestamps `YYYY-MM-DDTHH:MM:SSZ` and
`YYYY-MM-DDTHH:MM:SS.<digits>Z` (the shapes `new Date` receives from the
archive), yielding the instant's broken-down fields. -/
def parseIsoUtc (s : String) : Option DateTime :=
  match s.data with
  | y1 :: y2 :: y3 :: y4 :: '-' :: m1 :: m2 :: '-' :: d1 :: d2 :: 'T' ::
     h1 :: h2 :: ':' :: n1 :: n2 :: ':' :: s1 :: s2 :: rest =>
    if isDig y1 && isDig y2 && isDig y3 && isDig y4 &&
       isDig m1 && isDig m2 && isDig d1 && isDig d2 &&
       isDig h1 && isDig h2 && isDig n1 && isDig n2 &&
       isDig s1 && isDig s2 && fracTailZ rest then
      some ⟨digVal y1 * 1000 + digVal y2 * 100 + digVal y3 * 10 + digVal y4,
            digVal m1 * 10 + digVal m2,
            digVal d1 * 10 + digVal d2,
            digVal h1 * 10 + digVal h2,
            digVal n1 * 10 + digVal n2,
            digVal s1 * 10 + digVal s2⟩
    else none
  | _ => none

/-- Two fixed decimal digits, as toISOString prints each sub-year field. -/
def pad2 (n : Nat) : List Char := [Nat.digitChar (n / 10 % 10), Nat.digitChar (n % 10)]

/-- Four fixed decimal digits for the year. -/
def pad4 (n : Nat) : List Char :=
  [Nat.digitChar (n / 1000 % 10), Nat.digitChar (n / 100 % 10),
   Nat.digitChar (n / 10 % 10), Nat.digitChar (n % 10)]

/-- `Date.prototype.toISOString`: `YYYY-MM-DDTHH:mm:ss.sssZ`. -/
def dateToIso (dt : DateTime) : List Char :=
  pad4 dt.year ++ '-' :: pad2 dt.month ++ '-' :: pad2 dt.day ++ 'T' ::
    pad2 dt.hour ++ ':' :: pad2 dt.minute ++ ':' :: pad2 dt.second ++
      ['.', '0', '0', '0', 'Z']

/-- `.replace(/[-:]/g, "")`. -/
def removeDashColon (l : List Char) : List Char :=
  l.filter (fun c => !(c = '-' || c = ':'))

/-- `.replace("T", "_")`: a string pattern replaces the first occurrence only. -/
def replaceFirstT : List Char → List Char
  | [] => []
  | c :: t => if c = 'T' then '_' :: t else c :: replaceFirstT t

/-- The timestamp part of the filename:
`toISOString().replace(/[-:]/g, "").replace("T", "_").slice(0, 15)`. -/
def tsTransform (l : List Char) : List Char :=
  (replaceFirstT (removeDashColon l)).take 15

/-- `a-z0-9` membership after lower-casing (the negated class of the slug
regex). -/
def isSlugChar (c : Char) : Bool :=
  decide (97 ≤ c.toNat ∧ c.toNat ≤ 122) || decide (48 ≤ c.toNat ∧ c.toNat ≤ 57)

/-- `.replace(/[^a-z0-9]+/g, "-")` as a left-to-right scan: the flag records
being inside a non-slug run, so each maximal run emits a single dash. -/
def dashifyGo : Bool → List Char → List Char
  | _, [] => []
  | inRun, c :: cs =>
    if isSlugChar c then c :: dashifyGo false cs
    else if inRun then dashifyGo true cs else '-' :: dashifyGo true cs

/-- `.replace(/[^a-z0-9]+/g, "-")`: each maximal run of non-slug characters
becomes a single dash. -/
def dashifyRuns (l : List Char) : List Char := dashifyGo false l

/-- `.replace(/^-+|-+$/g, "")`: strip leading and trailing dash runs. -/
def stripEdgeDashes (l : List Char) : List Char :=
  ((l.dropWhile (fun c => c = '-')).reverse.dropWhile (fun c => c = '-')).reverse

/-- The slug of a conversation name:
`name.toLowerCase().replace(/[^a-z0-9]+/g, "-").replace(/^-+|-+$/g, "").slice(0, 50)`. -/
def slugOf (name : String) : String :=
  ⟨(stripEdgeDashes (dashifyRuns (name.data.map Char.toLower))).take 50⟩

/-- The `nameSlug` local of generateMarkdownFiles: uuid for a falsy name,
else the slug with uuid fallback when the slug cleans to empty. -/
def nameSlugOf (c : Rec) : String :=
  match c.name with
  | some n =>
    if n = "" then showOpt c.uuid
    else if slugOf n = "" then showOpt c.uuid else slugOf n
  | none => showOpt c.uuid

/-- The filename `${timestamp}_${nameSlug}.md`, with
`new Date(created_at || new Date())` modelled by `now` for an absent or empty
`created_at` and by `parseIsoUtc` for the archive's timestamp shapes; `none`
models the uncaught RangeError of `toISOString` on a present `created_at`
outside those shapes (the enclosing try/catch then skips the conversation).
`dateToIso` prints the millisecond field as `.000`; for a fractional input the
real `toISOString` prints the actual milliseconds there, but `slice(0, 15)`
removes that tail before it can reach the filename, so the two agree on every
produced name. -/
def filenameOf (now : DateTime) (c : Rec) : Option String :=
  let dt? : Option DateTime :=
    match c.created_at with
    | some s => if s = "" then some now else parseIsoUtc s
    | none => some now
  dt?.map (fun dt =>
    String.mk (tsTransform (dateToIso dt)) ++ "_" ++ nameSlugOf c ++ ".md")

/-! ## Store lemmas -/

theorem orElse_self_orElse (a b : Option α) :
    (a.orElse fun _ => a.orElse fun _ => b) = a.orElse fun _ => b := by
  cases a <;> rfl

theorem orElse_self (a : Option α) : (a.orElse fun _ => a) = a := by
  cases a <;> rfl

/-- Re-merging the same partial record is absorbed by the first merge. -/
theorem mergeRec_mergeRec_self (e p : Rec) :
    mergeRec (mergeRec e p) p = mergeRec e p := by
  simp [mergeRec, orElse_self_orElse]

/-- Merging a record into itself is the identity. -/
theorem mergeRec_self (p : Rec) : mergeRec p p = p := by
  simp [mergeRec, orElse_self]

theorem mergeRec_uuid (e p : Rec) :
    (mergeRec e p).uuid = p.uuid.orElse fun _ => e.uuid := rfl

/-- The merged record of `upsert`'s update keeps the item's present uuid. -/
theorem mergeRec_uuid_of_isSome (e r : Rec) (h : r.uuid.isSome) :
    (mergeRec e r).uuid = r.uuid := by
  rw [mergeRec_uuid]
  cases hr : r.uuid with
  | none => rw [hr] at h; simp at h
  | some u => rfl

/-- Updating twice with the same uuid-carrying record is absorbed. -/
theorem update_update_self (st : List Rec) (r : Rec) (h : r.uuid.isSome) :
    update (update st r.uuid r) r.uuid r = update st r.uuid r := by
  induction st with
  | nil => rfl
  | cons e t ih =>
    by_cases he : (e.uuid == r.uuid) = true
    · simp [update, he, mergeRec_uuid_of_isSome e r h, mergeRec_mergeRec_self]
    · simp [update, he, ih]

/-- An appended record is found by `update` after everything the key missed. -/
theorem update_append_self (st : List Rec) (r : Rec)
    (h : existsUuid st r.uuid = false) :
    update (st ++ [r]) r.uuid r = st ++ [r] := by
  induction st with
  | nil => simp [update, mergeRec_self]
  | cons e t ih =>
    simp only [existsUuid, List.any_cons, Bool.or_eq_false_iff] at h
    simp [update, h.1, ih (by simp [existsUuid, h.2])]

theorem existsUuid_update (st : List Rec) (r : Rec) (h : r.uuid.isSome) :
    existsUuid (update st r.uuid r) r.uuid = existsUuid st r.uuid := by
  induction st with
  | nil => rfl
  | cons e t ih =>
    by_cases he : (e.uuid == r.uuid) = true
    · simp [update, existsUuid, he, mergeRec_uuid_of_isSome e r h]
    · simp only [existsUuid] at ih
      simp [update, existsUuid, he, ih]

/-- C4 core: upserting the same record twice gives the same store as once. -/
theorem upsert_upsert_self (st : List Rec) (r : Rec) (h : r.uuid.isSome) :
    upsert (upsert st r) r = upsert st r := by
  by_cases hex : existsUuid st r.uuid
  · simp only [upsert, hex, if_pos]
    rw [if_pos (by rw [existsUuid_update st r h]; exact hex)]
    exact update_update_self st r h
  · have hex2 : existsUuid (st ++ [r]) r.uuid = true := by
      simp [existsUuid, List.any_append, beq_self_eq_true]
    simp only [upsert, hex, if_false, Bool.false_eq_true, insert, hex2, if_true]
    exact update_append_self st r (by simpa using hex)

/-- C4: `upsert` is idempotent: for every store state and record with a uuid,
a second `upsert` of the same record changes neither the store nor `count()`. -/
theorem upsert_idempotent (st : List Rec) (r : Rec) (h : r.uuid.isSome) :
    upsert (upsert st r) r = upsert st r ∧
      countRecs (upsert (upsert st r) r) = countRecs (upsert st r) := by
  refine ⟨upsert_upsert_self st r h, ?_⟩
  rw [upsert_upsert_self st r h]

/-- C4 witness: idempotence at a concrete store and record. -/
theorem upsert_idempotent_witness :
    (Option.isSome (some "u-1") = true) ∧
      (upsert (upsert [] { uuid := some "u-1" }) { uuid := some "u-1" } =
        upsert [] { uuid := some "u-1" } ∧
       countRecs (upsert (upsert [] { uuid := some "u-1" }) { uuid := some "u-1" }) =
        countRecs (upsert [] { uuid := some "u-1" })) :=
  ⟨rfl, upsert_idempotent [] { uuid := some "u-1" } rfl⟩

/-! ## C3: uuid uniqueness under the mutating operations -/

/-- When the partial record does not re-key the record (its `uuid` field is
absent or equals the update key), `update` leaves the stored uuid column
unchanged. -/
theorem map_uuid_update (st : List Rec) (k : Option String) (p : Rec)
    (hp : p.uuid = none ∨ p.uuid = k) :
    (update st k p).map Rec.uuid = st.map Rec.uuid := by
  induction st with
  | nil => rfl
  | cons e t ih =>
    by_cases he : (e.uuid == k) = true
    · have hek : e.uuid = k := by simpa using he
      have hm : (mergeRec e p).uuid = e.uuid := by
        rw [mergeRec_uuid]
        rcases hp with hn | hk
        · rw [hn]; rfl
        · rw [hk, ← hek]; cases e.uuid <;> rfl
      simp [update, he, hm]
    · simp [update, he, ih]

theorem uuidsDistinct_update (st : List Rec) (k : Option String) (p : Rec)
    (hp : p.uuid = none ∨ p.uuid = k) (h : uuidsDistinct st) :
    uuidsDistinct (update st k p) := by
  unfold uuidsDistinct at h ⊢
  rw [map_uuid_update st k p hp]
  exact h

theorem uuidsDistinct_delete (st : List Rec) (k : Option String)
    (h : uuidsDistinct st) : uuidsDistinct (delete st k) := by
  induction st with
  | nil => exact h
  | cons e t ih =>
    unfold uuidsDistinct at h ⊢
    simp only [List.map_cons, List.nodup_cons] at h
    by_cases he : (e.uuid == k) = true
    · simpa [delete, he] using h.2
    · have hsub : ((delete t k).map Rec.uuid).Sublist (t.map Rec.uuid) := by
        clear h ih
        induction t with
        | nil => simp [delete]
        | cons f u ihf =>
          by_cases hf : (f.uuid == k) = true
          · simp [delete, hf]
          · simp only [delete, hf, if_false, Bool.false_eq_true, List.map_cons]
            exact List.Sublist.cons₂ _ ihf
      simp only [delete, he, if_false, Bool.false_eq_true, List.map_cons,
        List.nodup_cons]
      exact ⟨fun hmem => h.1 (hsub.mem hmem), ih h.2⟩

theorem uuidsDistinct_insert (st : List Rec) (r : Rec)
    (hex : existsUuid st r.uuid = false) (h : uuidsDistinct st) :
    uuidsDistinct (insert st r) := by
  unfold uuidsDistinct at h ⊢
  simp only [insert, List.map_append, List.map_cons, List.map_nil]
  have hnot : r.uuid ∉ st.map Rec.uuid := by
    intro hmem
    obtain ⟨e, hes, heq⟩ := List.mem_map.mp hmem
    have : existsUuid st r.uuid = true := by
      simp only [existsUuid, List.any_eq_true]
      exact ⟨e, hes, by simp [heq]⟩
    rw [this] at hex; cases hex
  simp [List.nodup_append, h, hnot]

theorem uuidsDistinct_upsert (st : List Rec) (r : Rec)
    (h : uuidsDistinct st) : uuidsDistinct (upsert st r) := by
  by_cases hex : existsUuid st r.uuid = true
  · simp only [upsert, hex, if_true]
    exact uuidsDistinct_update st r.uuid r (Or.inr rfl) h
  · simp only [upsert, hex, if_false, Bool.false_eq_true]
    exact uuidsDistinct_insert st r (by simpa using hex) h

/-- A store with a single record keyed "u". -/
def dupRec : Rec := { uuid := some "u" }

/-- C3 counterexample: `insert` performs an unconditional push, so inserting a
record whose uuid is already stored yields two records with the same uuid;
the claim that every mutating operation preserves pairwise-distinct uuids is
false for `insert`. -/
theorem insert_breaks_uuidsDistinct :
    uuidsDistinct [dupRec] ∧
      insert [dupRec] dupRec = [dupRec, dupRec] ∧
      ¬ uuidsDistinct (insert [dupRec] dupRec) := by
  refine ⟨by decide, rfl, ?_⟩
  intro h
  simp [insert, uuidsDistinct, dupRec] at h

/-- C3 amended: `delete` and `upsert` always preserve pairwise-distinct stored
uuids, and `update` preserves them whenever the partial record does not re-key
the record (as in every call the program makes); `insert` preserves them only
under `upsert`'s guard that the inserted uuid is not already stored. -/
theorem mutations_preserve_uuidsDistinct (st : List Rec) (h : uuidsDistinct st) :
    (∀ k, uuidsDistinct (delete st k)) ∧
      (∀ r, uuidsDistinct (upsert st r)) ∧
      (∀ k p, p.uuid = none ∨ p.uuid = k → uuidsDistinct (update st k p)) ∧
      (∀ r, existsUuid st r.uuid = false → uuidsDistinct (insert st r)) :=
  ⟨fun k => uuidsDistinct_delete st k h,
   fun r => uuidsDistinct_upsert st r h,
   fun k p hp => uuidsDistinct_update st k p hp h,
   fun r hex => uuidsDistinct_insert st r hex h⟩

/-- C3 amended witness: the preservation statements at a concrete store. -/
theorem mutations_preserve_uuidsDistinct_witness :
    uuidsDistinct [dupRec] ∧
      uuidsDistinct (delete [dupRec] (some "u")) ∧
      uuidsDistinct (upsert [dupRec] dupRec) ∧
      uuidsDistinct (update [dupRec] (some "u") { processed := some true }) ∧
      uuidsDistinct (insert [dupRec] { uuid := some "v" }) := by
  have h0 : uuidsDistinct [dupRec] := by decide
  have h := mutations_preserve_uuidsDistinct [dupRec] h0
  exact ⟨h0, h.1 (some "u"), h.2.1 dupRec,
    h.2.2.1 (some "u") { processed := some true } (Or.inl rfl),
    h.2.2.2 { uuid := some "v" } (by decide)⟩

/-! ## C1: the ingestion-time sync decision -/

/-- C1: for a valid incoming conversation (truthy uuid), the loop body of
storeData upserts it exactly when force is set, or no record with its uuid is
stored, or the stored record's processed flag is not true, or the stored
updated_at differs from the incoming one; and the store is changed by that
upsert alone (skips leave it untouched). -/
theorem storeConvStep_decision (force : Bool) (st : List Rec) (c : Rec)
    (hv : truthyStr c.uuid = true) :
    ((storeConvStep force st c).2 = true ↔
      (force = true ∨ findByUuid st c.uuid = none ∨
        ∃ e, findByUuid st c.uuid = some e ∧
          (e.processed ≠ some true ∨ e.updated_at ≠ c.updated_at))) ∧
      (storeConvStep force st c).1 =
        (if (storeConvStep force st c).2 then upsert st c else st) := by
  unfold storeConvStep
  rw [hv]
  simp only [Bool.not_true, if_false, Bool.false_eq_true]
  by_cases hd : shouldProcess force (findByUuid st c.uuid) c = true
  · rw [if_pos hd]
    refine ⟨⟨fun _ => ?_, fun _ => rfl⟩, by simp⟩
    unfold shouldProcess at hd
    cases hf : findByUuid st c.uuid with
    | none => exact Or.inr (Or.inl rfl)
    | some e =>
      rw [hf] at hd
      rcases Bool.or_eq_true_iff.mp hd with hforce | hrest
      · exact Or.inl hforce
      · refine Or.inr (Or.inr ⟨e, rfl, ?_⟩)
        rcases Bool.or_eq_true_iff.mp hrest with hproc | hupd
        · left
          intro hp
          rw [hp] at hproc
          simp [truthyBool] at hproc
        · right
          intro hu
          rw [hu] at hupd
          simp at hupd
  · rw [if_neg hd]
    simp only [false_iff, if_false, Bool.false_eq_true, and_true]
    intro hcon
    apply hd
    unfold shouldProcess
    rcases hcon with hforce | hnone | ⟨e, he, hcond⟩
    · simp [hforce]
    · simp [hnone]
    · rw [he]
      rcases hcond with hproc | hupd
      · have : truthyBool e.processed = false := by
          cases hp : e.processed with
          | none => rfl
          | some b =>
            cases b with
            | false => rfl
            | true => exact absurd hp hproc
        simp [this]
      · simp [hupd]

/-- C1 witness: with force unset and a stored processed record with matching
updated_at the conversation is skipped; flipping updated_at processes it. -/
theorem storeConvStep_decision_witness :
    truthyStr (Rec.uuid { uuid := some "u", updated_at := some "T2" }) = true ∧
      ((storeConvStep false
          [{ uuid := some "u", updated_at := some "T2", processed := some true }]
          { uuid := some "u", updated_at := some "T2" }).2 = true ↔
        (false = true ∨
          findByUuid
            [{ uuid := some "u", updated_at := some "T2", processed := some true }]
            (some "u") = none ∨
          ∃ e, findByUuid
            [{ uuid := some "u", updated_at := some "T2", processed := some true }]
            (some "u") = some e ∧
            (e.processed ≠ some true ∨ e.updated_at ≠ some "T2"))) :=
  ⟨rfl,
    (storeConvStep_decision false
      [{ uuid := some "u", updated_at := some "T2", processed := some true }]
      { uuid := some "u", updated_at := some "T2" } rfl).1⟩

/-! ## C2: render-time skip after a changed conversation is re-ingested

BaseRepository.update merges `{...existing, ...item}`, and an incoming
archive conversation carries no `processed` or `markdownPath` field, so the
merged record keeps both from the stale existing record; the render-time test
`!force && processed && markdownPath` then skips the freshly re-ingested
conversation. -/

/-- The stale stored record: processed, with a rendered document. -/
def staleStored : Rec :=
  { uuid := some "u", updated_at := some "T1", processed := some true,
    markdownPath := some "/out/old.md" }

/-- The incoming conversation: same uuid, new updated_at, no processed or
markdownPath fields (archive data never carries them). -/
def incomingChanged : Rec := { uuid := some "u", updated_at := some "T2" }

/-- C2 counterexample: the incoming conversation's updated_at differs, the
sync decision re-ingests (upserts) it, yet the merged stored record still
carries processed=true and the old markdownPath, so the rendering phase skips
it and leaves the whole store — hence the stale document — untouched. -/
theorem reingested_conversation_still_skipped :
    staleStored.updated_at ≠ incomingChanged.updated_at ∧
      (storeConvStep false [staleStored] incomingChanged).2 = true ∧
      findByUuid (storeConvStep false [staleStored] incomingChanged).1 (some "u") =
        some (mergeRec staleStored incomingChanged) ∧
      (mergeRec staleStored incomingChanged).updated_at = some "T2" ∧
      shouldSkipRender false (mergeRec staleStored incomingChanged) = true ∧
      renderPhase false (fun _ => some "/out/new.md")
          (storeConvStep false [staleStored] incomingChanged).1 =
        (storeConvStep false [staleStored] incomingChanged).1 := by
  refine ⟨by decide, by decide, by decide, by decide, by decide, ?_⟩
  decide

/-- Any record found in the store is reported present by `exists`. -/
theorem existsUuid_of_findByUuid (st : List Rec) (k : Option String) (e : Rec)
    (h : findByUuid st k = some e) : existsUuid st k = true := by
  induction st with
  | nil => simp [findByUuid] at h
  | cons f t ih =>
    by_cases hf : (f.uuid == k) = true
    · simp [existsUuid, hf]
    · simp only [findByUuid, List.find?_cons, hf, if_false, Bool.false_eq_true] at h
      simp only [existsUuid, List.any_cons, hf, Bool.false_or]
      exact ih h

/-- `update` rewrites the first record the key finds into the merge, and a
uuid-keeping partial lets `findByUuid` return exactly that merge. -/
theorem findByUuid_update_self (st : List Rec) (c : Rec) (e : Rec)
    (hs : c.uuid.isSome) (h : findByUuid st c.uuid = some e) :
    findByUuid (update st c.uuid c) c.uuid = some (mergeRec e c) := by
  induction st with
  | nil => simp [findByUuid] at h
  | cons f t ih =>
    by_cases hf : (f.uuid == c.uuid) = true
    · have he : f = e := by
        simpa [findByUuid, List.find?_cons, hf] using h
      subst he
      simp [update, hf, findByUuid, List.find?_cons,
        mergeRec_uuid_of_isSome f c hs]
    · simp only [findByUuid, List.find?_cons, hf, if_false, Bool.false_eq_true] at h
      simp only [update, hf, if_false, Bool.false_eq_true]
      simp only [findByUuid, List.find?_cons, hf, if_false, Bool.false_eq_true]
      exact ih h

/-- C2 amended: a conversation re-ingested because its updated_at changed is
stored as the shallow merge over the existing record; when the existing record
was processed with a rendered document and the incoming record carries neither
field, the merge keeps both, and the rendering phase (without force) skips the
re-ingested conversation — the render-time skip never compares updated_at. -/
theorem reingestion_preserves_processed_and_skips (st : List Rec) (e c : Rec)
    (hv : truthyStr c.uuid = true)
    (hfind : findByUuid st c.uuid = some e)
    (hchanged : e.updated_at ≠ c.updated_at)
    (hproc : e.processed = some true)
    (hpath : truthyStr e.markdownPath = true)
    (hcp : c.processed = none) (hcm : c.markdownPath = none) :
    (storeConvStep false st c).2 = true ∧
      findByUuid (storeConvStep false st c).1 c.uuid = some (mergeRec e c) ∧
      (mergeRec e c).processed = some true ∧
      (mergeRec e c).markdownPath = e.markdownPath ∧
      shouldSkipRender false (mergeRec e c) = true := by
  have hs : c.uuid.isSome := by
    cases hc : c.uuid with
    | none => rw [hc] at hv; simp [truthyStr] at hv
    | some u => rfl
  have hdec := storeConvStep_decision false st c hv
  have hflag : (storeConvStep false st c).2 = true := by
    rw [hdec.1]
    exact Or.inr (Or.inr ⟨e, hfind, Or.inr hchanged⟩)
  have hstore : (storeConvStep false st c).1 = upsert st c := by
    rw [hdec.2, hflag]; simp
  have hmp : (mergeRec e c).processed = some true := by
    simp [mergeRec, hcp, hproc]
  have hmm : (mergeRec e c).markdownPath = e.markdownPath := by
    simp [mergeRec, hcm]
  refine ⟨hflag, ?_, hmp, hmm, ?_⟩
  · rw [hstore]
    unfold upsert
    rw [existsUuid_of_findByUuid st c.uuid e hfind, if_pos rfl]
    exact findByUuid_update_self st c e hs hfind
  · simp [shouldSkipRender, truthyBool, hmp, hmm, hpath]

/-- C2 amended witness: the general statement at the concrete stale store. -/
theorem reingestion_preserves_processed_and_skips_witness :
    (storeConvStep false [staleStored] incomingChanged).2 = true ∧
      findByUuid (storeConvStep false [staleStored] incomingChanged).1
          incomingChanged.uuid = some (mergeRec staleStored incomingChanged) ∧
      (mergeRec staleStored incomingChanged).processed = some true ∧
      (mergeRec staleStored incomingChanged).markdownPath =
        staleStored.markdownPath ∧
      shouldSkipRender false (mergeRec staleStored incomingChanged) = true :=
  reingestion_preserves_processed_and_skips [staleStored] staleStored
    incomingChanged rfl (by decide) (by decide) rfl rfl rfl rfl

/-! ## C10: a failing render leaves the record unchanged and is confined -/

/-- In a uuid-distinct store, a member record is exactly what its uuid finds. -/
theorem findByUuid_of_mem_distinct (st : List Rec) (c : Rec)
    (hd : uuidsDistinct st) (hc : c ∈ st) : findByUuid st c.uuid = some c := by
  induction st with
  | nil => cases hc
  | cons e t ih =>
    unfold uuidsDistinct at hd
    simp only [List.map_cons, List.nodup_cons] at hd
    rcases List.mem_cons.mp hc with rfl | hct
    · simp [findByUuid, List.find?_cons]
    · have hne : ¬(e.uuid == c.uuid) = true := by
        intro hb
        exact hd.1 (by
          rw [show e.uuid = c.uuid by simpa using hb]
          exact List.mem_map.mpr ⟨c, hct, rfl⟩)
      simp only [findByUuid, List.find?_cons, hne, if_false, Bool.false_eq_true]
      exact ih hd.2 hct

/-- `update` with a non-re-keying partial rewrites what the key finds into the
merge. -/
theorem findByUuid_update_keyed (st : List Rec) (k : Option String) (p e : Rec)
    (hp : p.uuid = none ∨ p.uuid = k) (h : findByUuid st k = some e) :
    findByUuid (update st k p) k = some (mergeRec e p) := by
  induction st with
  | nil => simp [findByUuid] at h
  | cons f t ih =>
    by_cases hf : (f.uuid == k) = true
    · have hfe : f = e := by simpa [findByUuid, List.find?_cons, hf] using h
      subst hfe
      have hm : (mergeRec f p).uuid = f.uuid := by
        rw [mergeRec_uuid]
        rcases hp with hn | hk
        · rw [hn]; rfl
        · rw [hk, show f.uuid = k by simpa using hf]; cases k <;> rfl
      simp [update, hf, findByUuid, List.find?_cons, hm]
    · simp only [findByUuid, List.find?_cons, hf, if_false, Bool.false_eq_true] at h
      simp only [update, hf, if_false, Bool.false_eq_true, findByUuid,
        List.find?_cons]
      exact ih h

/-- `update` at one key does not disturb what another key finds, as long as
the partial does not re-key the record. -/
theorem findByUuid_update_other (st : List Rec) (k u : Option String) (p : Rec)
    (hku : k ≠ u) (hp : p.uuid = none) :
    findByUuid (update st k p) u = findByUuid st u := by
  induction st with
  | nil => rfl
  | cons f t ih =>
    by_cases hf : (f.uuid == k) = true
    · have hfk : f.uuid = k := by simpa using hf
      have hm : (mergeRec f p).uuid = f.uuid := by
        rw [mergeRec_uuid, hp]; rfl
      have hnu : ¬(f.uuid == u) = true := by
        intro hb
        exact hku (by rw [← hfk]; simpa using hb)
      simp only [update, hf, if_true, findByUuid, List.find?_cons, hm, hnu,
        if_false, Bool.false_eq_true]
    · simp only [update, hf, if_false, Bool.false_eq_true, findByUuid,
        List.find?_cons]
      by_cases hfu : (f.uuid == u) = true
      · simp [hfu]
      · simp only [hfu, if_false, Bool.false_eq_true]
        exact ih

/-- One loop iteration for a conversation with a different uuid does not
disturb a record. -/
theorem renderStep_find_other (force : Bool) (attempt : Rec → Option String)
    (st : List Rec) (d : Rec) (u : Option String) (hne : d.uuid ≠ u) :
    findByUuid (renderStep force attempt st d) u = findByUuid st u := by
  unfold renderStep
  by_cases hskip : shouldSkipRender force d = true
  · rw [if_pos hskip]
  · rw [if_neg hskip]
    cases ha : attempt d with
    | none => rfl
    | some out => exact findByUuid_update_other st d.uuid u (renderedPatch out) hne rfl

/-- Folding the loop over conversations of other uuids does not disturb a
record. -/
theorem foldl_renderStep_find_other (force : Bool) (attempt : Rec → Option String)
    (convs : List Rec) (st : List Rec) (u : Option String)
    (h : ∀ d ∈ convs, d.uuid ≠ u) :
    findByUuid (convs.foldl (renderStep force attempt) st) u = findByUuid st u := by
  induction convs generalizing st with
  | nil => rfl
  | cons d t ih =>
    rw [List.foldl_cons]
    rw [ih (renderStep force attempt st d) (fun x hx => h x (List.mem_cons_of_mem d hx))]
    exact renderStep_find_other force attempt st d u (h d (List.mem_cons_self d t))

/-- Splitting a uuid-distinct store at a member keeps every other element off
the member's uuid. -/
theorem distinct_split_ne (l1 l2 : List Rec) (c : Rec)
    (hd : uuidsDistinct (l1 ++ c :: l2)) :
    (∀ d ∈ l1, d.uuid ≠ c.uuid) ∧ (∀ d ∈ l2, d.uuid ≠ c.uuid) := by
  unfold uuidsDistinct at hd
  rw [List.map_append, List.nodup_append] at hd
  obtain ⟨h1, h2, hdisj⟩ := hd
  rw [List.map_cons, List.nodup_cons] at h2
  constructor
  · intro d hdm heq
    exact hdisj (List.mem_map.mpr ⟨d, hdm, rfl⟩) (by rw [heq]; exact List.mem_cons_self _ _)
  · intro d hdm heq
    exact h2.1 (by rw [← heq]; exact List.mem_map.mpr ⟨d, hdm, rfl⟩)

/-- C10: when the fallible render body (markdown generation, filename
creation, file write) fails for a conversation, the whole rendering phase
leaves that conversation's stored record untouched — in particular `processed`
and `markdownPath` are not set, so an incomplete record stays eligible on the
next run — while every other conversation whose body succeeds is still marked
processed with its markdown path. -/
theorem render_failure_confined (force : Bool) (attempt : Rec → Option String)
    (st : List Rec) (c : Rec) (hd : uuidsDistinct st) (hc : c ∈ st)
    (hfail : attempt c = none) :
    findByUuid (renderPhase force attempt st) c.uuid = some c ∧
      ((c.processed ≠ some true ∨ truthyStr c.markdownPath = false) →
        shouldSkipRender false c = false) ∧
      (∀ d out, d ∈ st → d.uuid ≠ c.uuid → shouldSkipRender force d = false →
        attempt d = some out →
        findByUuid (renderPhase force attempt st) d.uuid =
          some (mergeRec d (renderedPatch out))) := by
  refine ⟨?_, ?_, ?_⟩
  · obtain ⟨l1, l2, hsplit⟩ := List.append_of_mem hc
    subst hsplit
    have hne := distinct_split_ne l1 l2 c hd
    unfold renderPhase findAll
    rw [List.foldl_append, List.foldl_cons]
    rw [foldl_renderStep_find_other force attempt l2 _ c.uuid hne.2]
    have hstep : renderStep force attempt (l1.foldl (renderStep force attempt) (l1 ++ c :: l2)) c =
        l1.foldl (renderStep force attempt) (l1 ++ c :: l2) := by
      unfold renderStep
      by_cases hskip : shouldSkipRender force c = true
      · rw [if_pos hskip]
      · rw [if_neg hskip, hfail]
    rw [hstep]
    rw [foldl_renderStep_find_other force attempt l1 _ c.uuid hne.1]
    exact findByUuid_of_mem_distinct _ c hd hc
  · intro hel
    unfold shouldSkipRender
    rcases hel with hp | hm
    · have : truthyBool c.processed = false := by
        cases hcp : c.processed with
        | none => rfl
        | some b =>
          cases b with
          | false => rfl
          | true => exact absurd hcp hp
      simp [this]
    · simp [hm]
  · intro d out hdm hdne hskip hsucc
    obtain ⟨m1, m2, hsplit⟩ := List.append_of_mem hdm
    subst hsplit
    have hne := distinct_split_ne m1 m2 d hd
    unfold renderPhase findAll
    rw [List.foldl_append, List.foldl_cons]
    rw [foldl_renderStep_find_other force attempt m2 _ d.uuid hne.2]
    have hfd : findByUuid (m1.foldl (renderStep force attempt) (m1 ++ d :: m2)) d.uuid =
        some d := by
      rw [foldl_renderStep_find_other force attempt m1 _ d.uuid hne.1]
      exact findByUuid_of_mem_distinct _ d hd hdm
    unfold renderStep
    rw [if_neg (by rw [hskip]; exact Bool.false_ne_true), hsucc]
    exact findByUuid_update_keyed _ d.uuid (renderedPatch out) d (Or.inl rfl) hfd

/-- An unprocessed stored conversation whose render body will fail. -/
def failingConv : Rec := { uuid := some "w" }

/-- C10 witness: one failing conversation in a two-record store keeps its
record unchanged through the rendering phase. -/
theorem render_failure_confined_witness :
    (uuidsDistinct [staleStored, failingConv] ∧
      failingConv ∈ [staleStored, failingConv] ∧
      (fun r : Rec => if r.uuid = some "w" then none else some "/out/new.md")
        failingConv = none) ∧
      findByUuid (renderPhase false
          (fun r : Rec => if r.uuid = some "w" then none else some "/out/new.md")
          [staleStored, failingConv]) failingConv.uuid =
        some failingConv := by
  refine ⟨⟨by decide, by decide, by decide⟩, ?_⟩
  exact (render_failure_confined false
    (fun r : Rec => if r.uuid = some "w" then none else some "/out/new.md")
    [staleStored, failingConv] failingConv (by decide) (by decide)
    (by decide)).1

/-! ## C5 and C6: archive processing -/

/-- A fixed prefix followed by anything never equals a string whose
corresponding prefix differs. -/
theorem append_ne_of_take_ne (s1 s2 : String)
    (hne : s2.data.take s1.data.length ≠ s1.data) (m : String) :
    s1 ++ m ≠ s2 := by
  intro heq
  apply hne
  have hd := congrArg String.data heq
  rw [String.data_append] at hd
  rw [← hd]
  exact List.take_left s1.data m.data

/-- C5: an archive with no entry whose name contains "conversations.json"
always fails with the missing-conversations error, whose message names the
missing file; no other failure mode of `process` carries that message. -/
theorem process_missing_conversations (entries : List ZipEntry)
    (h : ∀ e ∈ entries, strIncl e.entryName "conversations.json" = false) :
    process entries = .error .missingConversationsFile ∧
      strIncl (zipErrorMessage .missingConversationsFile)
        "Missing conversations.json" = true ∧
      (∀ z : ZipError, z ≠ .missingConversationsFile →
        zipErrorMessage z ≠ zipErrorMessage .missingConversationsFile) := by
  refine ⟨?_, by decide, ?_⟩
  · have hf : entries.find? (fun e => strIncl e.entryName "conversations.json") = none :=
      List.find?_eq_none.mpr (fun e he => by simp [h e he])
    unfold process
    rw [hf]
  · intro z hz
    cases z with
    | missingConversationsFile => exact absurd rfl hz
    | jsonError m =>
      exact append_ne_of_take_ne "Failed to process zip file: Error parsing JSON: "
        (zipErrorMessage .missingConversationsFile) (by decide) m
    | readError m =>
      exact append_ne_of_take_ne "Failed to process zip file: Error reading file: "
        (zipErrorMessage .missingConversationsFile) (by decide) m

/-- C5 witness: a users-only archive fails with the missing-conversations
error. -/
theorem process_missing_conversations_witness :
    (∀ e ∈ [ZipEntry.mk "data/users.json" (.ok [])],
      strIncl e.entryName "conversations.json" = false) ∧
      process [ZipEntry.mk "data/users.json" (.ok [])] =
        .error .missingConversationsFile := by
  refine ⟨by decide, ?_⟩
  exact (process_missing_conversations [ZipEntry.mk "data/users.json" (.ok [])]
    (by decide)).1

/-- C6: a valid archive whose conversations entry parses and which has no
users and no projects entry processes successfully into exactly the parsed
conversations and empty users and projects collections. -/
theorem process_conversations_only (entries : List ZipEntry) (ce : ZipEntry)
    (l : List Rec)
    (hc : entries.find? (fun e => strIncl e.entryName "conversations.json") = some ce)
    (hok : ce.parsedArray = .ok l)
    (hu : ∀ e ∈ entries, strIncl e.entryName "users.json" = false)
    (hp : ∀ e ∈ entries, strIncl e.entryName "projects.json" = false) :
    process entries = .ok ⟨[], [], l⟩ ∧
      (ProcessResult.mk [] [] l).conversations.length = l.length ∧
      (ProcessResult.mk [] [] l).users = [] ∧
      (ProcessResult.mk [] [] l).projects = [] := by
  refine ⟨?_, rfl, rfl, rfl⟩
  have hfu : entries.find? (fun e => strIncl e.entryName "users.json") = none :=
    List.find?_eq_none.mpr (fun e he => by simp [hu e he])
  have hfp : entries.find? (fun e => strIncl e.entryName "projects.json") = none :=
    List.find?_eq_none.mpr (fun e he => by simp [hp e he])
  cases ce with
  | mk nm pa =>
    simp only at hok
    subst hok
    unfold process
    rw [hc, hfu, hfp]

/-- C6 witness: a single-entry archive with two parsed conversations. -/
theorem process_conversations_only_witness :
    ([ZipEntry.mk "conversations.json" (.ok [dupRec, failingConv])].find?
        (fun e => strIncl e.entryName "conversations.json") =
      some (ZipEntry.mk "conversations.json" (.ok [dupRec, failingConv]))) ∧
      process [ZipEntry.mk "conversations.json" (.ok [dupRec, failingConv])] =
        .ok ⟨[], [], [dupRec, failingConv]⟩ := by
  refine ⟨by decide, ?_⟩
  exact (process_conversations_only
    [ZipEntry.mk "conversations.json" (.ok [dupRec, failingConv])]
    (ZipEntry.mk "conversations.json" (.ok [dupRec, failingConv]))
    [dupRec, failingConv] (by decide) rfl (by decide) (by decide)).1

/-! ## C9: the rendered document title -/

/-- A conversation whose name is a non-empty whitespace-only string. -/
def blankNamed : Rec :=
  { uuid := some "test-uuid-2", name := some " ",
    chat_messages := some [{ text := some "What is the meaning of life?" }] }

/-- C9 counterexample: getTitle tests `name && name.trim()`, so a non-empty
but whitespace-only name is passed over in favour of the first message's text;
the claim that the title is the name whenever the name is non-empty fails. -/
theorem whitespace_name_not_title :
    blankNamed.name = some " " ∧ (" " : String) ≠ "" ∧
      getTitle blankNamed = "What is the meaning of life?" ∧
      getTitle blankNamed ≠ " " := by
  refine ⟨rfl, by decide, by decide, by decide⟩

/-- The ellipsizing truncation of a long title line. -/
def ellipsize50 (s : String) : String :=
  if s.length > 50 then ⟨s.data.take 50⟩ ++ "..." else s

/-- The name neither present nor non-blank. -/
def nameBlank (c : Rec) : Prop :=
  c.name = none ∨ ∃ n, c.name = some n ∧ jsTrim n = ""

/-- No usable first-message text: no messages, or the first message's text is
absent or blank. -/
def firstTextBlank (c : Rec) : Prop :=
  (∀ m ms, c.chat_messages = some (m :: ms) →
    m.text = none ∨ ∃ t, m.text = some t ∧ jsTrim t = "")

/-- C9 amended: the title is the name when the name is non-blank (non-empty
after trimming); otherwise the trimmed first line of the first message's text
when that text is non-blank, ellipsized past 50 characters; otherwise the
fallback built from the uuid. -/
theorem getTitle_resolution (c : Rec) :
    (∀ n, c.name = some n → jsTrim n ≠ "" → getTitle c = n) ∧
      (nameBlank c → ∀ m ms t, c.chat_messages = some (m :: ms) →
        m.text = some t → jsTrim t ≠ "" →
        getTitle c = ellipsize50 (jsTrim (firstLineOf t))) ∧
      (nameBlank c → firstTextBlank c →
        getTitle c = "Conversation " ++ showOpt c.uuid) := by
  have hblank : ∀ s : String, jsTrim s ≠ "" → s ≠ "" := by
    intro s hs he
    subst he
    exact hs rfl
  have hgoto : nameBlank c → getTitle c = getTitleFromMessages c := by
    intro hb
    unfold getTitle
    rcases hb with hn | ⟨n, hn, ht⟩
    · rw [hn]
    · rw [hn]
      simp [ht]
  refine ⟨?_, ?_, ?_⟩
  · intro n hn htrim
    unfold getTitle
    rw [hn]
    simp [htrim, hblank n htrim]
  · intro hb m ms t hm ht htrim
    rw [hgoto hb]
    unfold getTitleFromMessages
    rw [hm]
    simp [ht, htrim, hblank t htrim, ellipsize50]
  · intro hb hft
    rw [hgoto hb]
    unfold getTitleFromMessages
    cases hcm : c.chat_messages with
    | none => rfl
    | some msgs =>
      cases msgs with
      | nil => rfl
      | cons m ms =>
        rcases hft m ms hcm with hn | ⟨t, ht, htr⟩
        · simp [hn]
        · simp [ht, htr]

/-- A conversation whose name is a single no-break space (U+00A0): non-empty,
but blank to JS `trim`. -/
def nbspNamed : Rec :=
  { uuid := some "test-uuid-3", name := some "\u00A0",
    chat_messages := some [{ text := some "What is the meaning of life?" }] }

/-- C9 amended witness: the branches at concrete conversations, including a
no-break-space name that is blank to JS trim. -/
theorem getTitle_resolution_witness :
    getTitle { uuid := some "u-9", name := some "Test Conversation" } =
        "Test Conversation" ∧
      getTitle blankNamed = ellipsize50 (jsTrim (firstLineOf "What is the meaning of life?")) ∧
      getTitle nbspNamed = ellipsize50 (jsTrim (firstLineOf "What is the meaning of life?")) ∧
      getTitle { uuid := some "u-9" } = "Conversation " ++ showOpt (some "u-9") := by
  refine ⟨?_, ?_, ?_, ?_⟩
  · exact (getTitle_resolution { uuid := some "u-9", name := some "Test Conversation" }).1
      "Test Conversation" rfl (by decide)
  · exact (getTitle_resolution blankNamed).2.1 (Or.inr ⟨" ", rfl, by decide⟩)
      { text := some "What is the meaning of life?" } [] "What is the meaning of life?"
      rfl rfl (by decide)
  · exact (getTitle_resolution nbspNamed).2.1 (Or.inr ⟨"\u00A0", rfl, by decide⟩)
      { text := some "What is the meaning of life?" } [] "What is the meaning of life?"
      rfl rfl (by decide)
  · exact (getTitle_resolution { uuid := some "u-9" }).2.2 (Or.inl rfl)
      (fun m ms hm => by cases hm)

/-! ## C8: the output document filename -/

/-- The rendered decimal digits never collide with the separators the
filename pipeline removes or replaces. -/
theorem digitChar_sep_facts : ∀ n < 10,
    Nat.digitChar n ≠ '-' ∧ Nat.digitChar n ≠ ':' ∧ Nat.digitChar n ≠ 'T' := by
  decide

theorem pad2_sep_free (n : Nat) :
    ∀ c ∈ pad2 n, c ≠ '-' ∧ c ≠ ':' ∧ c ≠ 'T' := by
  intro c hc
  have h1 := digitChar_sep_facts (n / 10 % 10) (Nat.mod_lt _ (by norm_num))
  have h2 := digitChar_sep_facts (n % 10) (Nat.mod_lt _ (by norm_num))
  rcases List.mem_pair.mp hc with rfl | rfl
  · exact h1
  · exact h2

theorem pad4_sep_free (n : Nat) :
    ∀ c ∈ pad4 n, c ≠ '-' ∧ c ≠ ':' ∧ c ≠ 'T' := by
  intro c hc
  have h1 := digitChar_sep_facts (n / 1000 % 10) (Nat.mod_lt _ (by norm_num))
  have h2 := digitChar_sep_facts (n / 100 % 10) (Nat.mod_lt _ (by norm_num))
  have h3 := digitChar_sep_facts (n / 10 % 10) (Nat.mod_lt _ (by norm_num))
  have h4 := digitChar_sep_facts (n % 10) (Nat.mod_lt _ (by norm_num))
  simp only [pad4, List.mem_cons, List.not_mem_nil, or_false] at hc
  rcases hc with rfl | rfl | rfl | rfl
  · exact h1
  · exact h2
  · exact h3
  · exact h4

/-- The dash-and-colon strip keeps every character of a separator-free list. -/
theorem removeDashColon_keep (l : List Char)
    (h : ∀ c ∈ l, c ≠ '-' ∧ c ≠ ':' ∧ c ≠ 'T') :
    removeDashColon l = l := by
  unfold removeDashColon
  rw [List.filter_eq_self]
  intro c hc
  simp [(h c hc).1, (h c hc).2.1]

/-- The first-occurrence `replace("T", "_")` crosses a T-free prefix. -/
theorem replaceFirstT_through (l1 l2 : List Char) (h : ∀ c ∈ l1, c ≠ 'T') :
    replaceFirstT (l1 ++ 'T' :: l2) = l1 ++ '_' :: l2 := by
  induction l1 with
  | nil => simp [replaceFirstT]
  | cons c t ih =>
    have hc := h c (List.mem_cons_self c t)
    simp only [List.cons_append, replaceFirstT, hc, if_false, List.cons.injEq,
      true_and]
    exact ih (fun d hd => h d (List.mem_cons_of_mem c hd))

/-- The timestamp transformation of the ISO string is exactly the
`YYYYMMDD_HHMMSS` compaction. -/
theorem tsTransform_dateToIso (dt : DateTime) :
    tsTransform (dateToIso dt) =
      pad4 dt.year ++ pad2 dt.month ++ pad2 dt.day ++
        '_' :: (pad2 dt.hour ++ pad2 dt.minute ++ pad2 dt.second) := by
  unfold tsTransform dateToIso
  have hrm : removeDashColon
      (pad4 dt.year ++ '-' :: pad2 dt.month ++ '-' :: pad2 dt.day ++ 'T' ::
        pad2 dt.hour ++ ':' :: pad2 dt.minute ++ ':' :: pad2 dt.second ++
          ['.', '0', '0', '0', 'Z']) =
      pad4 dt.year ++ pad2 dt.month ++ pad2 dt.day ++ 'T' ::
        (pad2 dt.hour ++ pad2 dt.minute ++ pad2 dt.second ++
          ['.', '0', '0', '0', 'Z']) := by
    unfold removeDashColon
    simp only [List.filter_append, List.filter_cons]
    rw [show (List.filter (fun c => !(c = '-' || c = ':')) (pad4 dt.year)) = pad4 dt.year from
      List.filter_eq_self.mpr (fun c hc => by
        simp [(pad4_sep_free dt.year c hc).1, (pad4_sep_free dt.year c hc).2.1])]
    rw [show (List.filter (fun c => !(c = '-' || c = ':')) (pad2 dt.month)) = pad2 dt.month from
      List.filter_eq_self.mpr (fun c hc => by
        simp [(pad2_sep_free dt.month c hc).1, (pad2_sep_free dt.month c hc).2.1])]
    rw [show (List.filter (fun c => !(c = '-' || c = ':')) (pad2 dt.day)) = pad2 dt.day from
      List.filter_eq_self.mpr (fun c hc => by
        simp [(pad2_sep_free dt.day c hc).1, (pad2_sep_free dt.day c hc).2.1])]
    rw [show (List.filter (fun c => !(c = '-' || c = ':')) (pad2 dt.hour)) = pad2 dt.hour from
      List.filter_eq_self.mpr (fun c hc => by
        simp [(pad2_sep_free dt.hour c hc).1, (pad2_sep_free dt.hour c hc).2.1])]
    rw [show (List.filter (fun c => !(c = '-' || c = ':')) (pad2 dt.minute)) = pad2 dt.minute from
      List.filter_eq_self.mpr (fun c hc => by
        simp [(pad2_sep_free dt.minute c hc).1, (pad2_sep_free dt.minute c hc).2.1])]
    rw [show (List.filter (fun c => !(c = '-' || c = ':')) (pad2 dt.second)) = pad2 dt.second from
      List.filter_eq_self.mpr (fun c hc => by
        simp [(pad2_sep_free dt.second c hc).1, (pad2_sep_free dt.second c hc).2.1])]
    simp
  rw [hrm]
  have hTfree : ∀ c ∈ pad4 dt.year ++ pad2 dt.month ++ pad2 dt.day, c ≠ 'T' := by
    intro c hc
    simp only [List.append_assoc, List.mem_append] at hc
    rcases hc with h4 | h2 | h2
    · exact (pad4_sep_free dt.year c h4).2.2
    · exact (pad2_sep_free dt.month c h2).2.2
    · exact (pad2_sep_free dt.day c h2).2.2
  rw [show pad4 dt.year ++ pad2 dt.month ++ pad2 dt.day ++ 'T' ::
      (pad2 dt.hour ++ pad2 dt.minute ++ pad2 dt.second ++ ['.', '0', '0', '0', 'Z']) =
      (pad4 dt.year ++ pad2 dt.month ++ pad2 dt.day) ++ 'T' ::
      (pad2 dt.hour ++ pad2 dt.minute ++ pad2 dt.second ++ ['.', '0', '0', '0', 'Z']) by
    simp [List.append_assoc]]
  rw [replaceFirstT_through _ _ hTfree]
  have hsplit : (pad4 dt.year ++ pad2 dt.month ++ pad2 dt.day) ++ '_' ::
      (pad2 dt.hour ++ pad2 dt.minute ++ pad2 dt.second ++ ['.', '0', '0', '0', 'Z']) =
      ((pad4 dt.year ++ pad2 dt.month ++ pad2 dt.day) ++ '_' ::
        (pad2 dt.hour ++ pad2 dt.minute ++ pad2 dt.second)) ++ ['.', '0', '0', '0', 'Z'] := by
    simp [List.append_assoc]
  rw [hsplit]
  have hlen : ((pad4 dt.year ++ pad2 dt.month ++ pad2 dt.day) ++ '_' ::
      (pad2 dt.hour ++ pad2 dt.minute ++ pad2 dt.second)).length = 15 := by
    simp [pad4, pad2]
  rw [show (15 : Nat) = ((pad4 dt.year ++ pad2 dt.month ++ pad2 dt.day) ++ '_' ::
      (pad2 dt.hour ++ pad2 dt.minute ++ pad2 dt.second)).length from hlen.symm]
  rw [List.take_left]

/-- The compact `YYYYMMDD_HHMMSS` form of an instant. -/
def compactTs (dt : DateTime) : List Char :=
  pad4 dt.year ++ pad2 dt.month ++ pad2 dt.day ++
    '_' :: (pad2 dt.hour ++ pad2 dt.minute ++ pad2 dt.second)

/-- C8: the output filename is `YYYYMMDD_HHMMSS`, an underscore, the name slug
(lower-cased, hyphen-collapsed, edge-trimmed, capped at 50) or the uuid when
the name is falsy or the slug cleans to empty, then `.md`; the timestamp is
taken from a parseable `created_at`, and from the current time when
`created_at` is absent or empty. -/
theorem filename_format (now dt : DateTime) (c : Rec) :
    (∀ ca, c.created_at = some ca → parseIsoUtc ca = some dt →
      filenameOf now c =
        some (String.mk (compactTs dt) ++ "_" ++ nameSlugOf c ++ ".md")) ∧
      (c.created_at = none →
        filenameOf now c =
          some (String.mk (compactTs now) ++ "_" ++ nameSlugOf c ++ ".md")) ∧
      (c.created_at = some "" →
        filenameOf now c =
          some (String.mk (compactTs now) ++ "_" ++ nameSlugOf c ++ ".md")) ∧
      (c.name = none → nameSlugOf c = showOpt c.uuid) ∧
      (∀ n, c.name = some n → slugOf n = "" → nameSlugOf c = showOpt c.uuid) ∧
      (∀ n, c.name = some n → n ≠ "" → slugOf n ≠ "" → nameSlugOf c = slugOf n) := by
  refine ⟨?_, ?_, ?_, ?_, ?_, ?_⟩
  · intro ca h1 h2
    have hne : ¬(ca = "") := by
      intro he
      rw [he] at h2
      cases h2
    simp [filenameOf, h1, hne, h2, tsTransform_dateToIso, compactTs]
  · intro h1
    simp [filenameOf, h1, tsTransform_dateToIso, compactTs]
  · intro h1
    simp [filenameOf, h1, tsTransform_dateToIso, compactTs]
  · intro hn
    simp [nameSlugOf, hn]
  · intro n hn hslug
    by_cases hne : n = ""
    · simp [nameSlugOf, hn, hne]
    · simp [nameSlugOf, hn, hne, hslug]
  · intro n hn hne hslug
    simp [nameSlugOf, hn, hne, hslug]

/-- The conversation of the spec's filename example. -/
def exampleConv : Rec :=
  { uuid := some "test-uuid-1", name := some "Test Project!!",
    created_at := some "2025-01-01T12:00:00Z" }

/-- The same conversation with a fractional-seconds timestamp, the other
shape `new Date` receives from the archive. -/
def exampleConvFrac : Rec :=
  { uuid := some "test-uuid-1", name := some "Test Project!!",
    created_at := some "2025-01-01T12:00:00.000Z" }

/-- A conversation with no `created_at` and no name: timestamped from the
current time and slugged from the uuid. -/
def exampleConvAbsent : Rec := { uuid := some "u-abs" }

/-- C8 witness: the spec's example input (in both archive timestamp shapes)
produces a filename beginning `20250101_120000_test-project`, and an absent
`created_at` falls back to the current time. -/
theorem filename_format_witness :
    (exampleConv.created_at = some "2025-01-01T12:00:00Z" ∧
      parseIsoUtc "2025-01-01T12:00:00Z" = some ⟨2025, 1, 1, 12, 0, 0⟩ ∧
      parseIsoUtc "2025-01-01T12:00:00.000Z" = some ⟨2025, 1, 1, 12, 0, 0⟩ ∧
      exampleConvAbsent.created_at = none) ∧
      filenameOf ⟨2030, 6, 15, 8, 30, 0⟩ exampleConv =
        some "20250101_120000_test-project.md" ∧
      filenameOf ⟨2030, 6, 15, 8, 30, 0⟩ exampleConvFrac =
        some "20250101_120000_test-project.md" ∧
      filenameOf ⟨2030, 6, 15, 8, 30, 0⟩ exampleConvAbsent =
        some "20300615_083000_u-abs.md" ∧
      "20250101_120000_test-project".data.isPrefixOf
        "20250101_120000_test-project.md".data = true := by
  refine ⟨⟨rfl, by decide, by decide, rfl⟩, ?_, ?_, ?_, by decide⟩
  · have h := (filename_format ⟨2030, 6, 15, 8, 30, 0⟩ ⟨2025, 1, 1, 12, 0, 0⟩
      exampleConv).1 "2025-01-01T12:00:00Z" rfl (by decide)
    rw [h]
    decide
  · have h := (filename_format ⟨2030, 6, 15, 8, 30, 0⟩ ⟨2025, 1, 1, 12, 0, 0⟩
      exampleConvFrac).1 "2025-01-01T12:00:00.000Z" rfl (by decide)
    rw [h]
    decide
  · have h := (filename_format ⟨2030, 6, 15, 8, 30, 0⟩ ⟨2030, 6, 15, 8, 30, 0⟩
      exampleConvAbsent).2.1 rfl
    rw [h]
    decide

/-! ## C7: idempotence of code-block normalization

The proof hinges on three facts about the scan.  First, `findFence` splits at
the first fence, so the prefix it returns is fence-free even jointly with the
first two backticks of the fence (`ff_split`).  Second, such a clean prefix
before a fence is exactly where a later scan splits again (`ff_prepend`).
Third, the normalized span `newline ++ code ++ newline` between the rewritten
fences is again clean, because the span a lazy match captures contains no
fence and the flanking newlines block any straddling run of backticks. -/

/-- Three backticks, the fence delimiter. -/
def bt3 : List Char := [btick, btick, btick]

/-- The first two characters are blind to which fence continuation follows. -/
theorem take2_transfer (p s : List Char) :
    (p ++ [btick, btick]).take 2 = (p ++ bt3 ++ s).take 2 := by
  match p with
  | [] => rfl
  | [x] => rfl
  | x :: y :: t => simp [bt3]

/-- Splitting succeeds after any clean prefix. -/
theorem ff_prepend (p : List Char) (h : findFence (p ++ [btick, btick]) = none)
    (s : List Char) : findFence (p ++ bt3 ++ s) = some (p, s) := by
  induction p with
  | nil =>
    simp [findFence, bt3]
  | cons c p ih =>
    by_cases hc : c = btick ∧ (p ++ [btick, btick]).take 2 = [btick, btick]
    · rw [show (c :: p) ++ [btick, btick] = c :: (p ++ [btick, btick]) from rfl,
        findFence, if_pos hc] at h
      cases h
    · have hinner : findFence (p ++ [btick, btick]) = none := by
        rw [show (c :: p) ++ [btick, btick] = c :: (p ++ [btick, btick]) from rfl,
          findFence, if_neg hc] at h
        cases hf : findFence (p ++ [btick, btick]) with
        | none => rfl
        | some pr =>
          rw [hf] at h
          cases h
      have hc2 : ¬(c = btick ∧ (p ++ bt3 ++ s).take 2 = [btick, btick]) := by
        rw [← take2_transfer p s]
        exact hc
      rw [show (c :: p) ++ bt3 ++ s = c :: (p ++ bt3 ++ s) from by simp,
        findFence, if_neg hc2, ih hinner]

/-- What splitting returns: the original list reassembles around the fence,
and the prefix is clean even jointly with two more backticks. -/
theorem ff_split {cs p r : List Char} (h : findFence cs = some (p, r)) :
    cs = p ++ bt3 ++ r ∧ findFence (p ++ [btick, btick]) = none := by
  induction cs generalizing p r with
  | nil => cases h
  | cons c cs ih =>
    by_cases hc : c = btick ∧ cs.take 2 = [btick, btick]
    · rw [findFence, if_pos hc] at h
      have hpr : ([] : List Char) = p ∧ cs.drop 2 = r := by
        have h2 := Option.some.inj h
        exact ⟨congrArg Prod.fst h2, congrArg Prod.snd h2⟩
      obtain ⟨rfl, rfl⟩ := hpr
      have hcs : cs = [btick, btick] ++ cs.drop 2 := by
        rw [← hc.2]
        exact (List.take_append_drop 2 cs).symm
      constructor
      · rw [hc.1]
        rw [show ([] : List Char) ++ bt3 ++ cs.drop 2 =
          btick :: ([btick, btick] ++ cs.drop 2) from rfl]
        rw [← hcs]
      · decide
    · rw [findFence, if_neg hc] at h
      cases hf : findFence cs with
      | none =>
        rw [hf] at h
        cases h
      | some pr =>
        obtain ⟨p0, r0⟩ := pr
        rw [hf] at h
        have hpr : c :: p0 = p ∧ r0 = r := by
          have h2 := Option.some.inj h
          exact ⟨congrArg Prod.fst h2, congrArg Prod.snd h2⟩
        obtain ⟨rfl, rfl⟩ := hpr
        obtain ⟨hcs, hclean⟩ := ih hf
        constructor
        · rw [hcs]
          simp
        · have hc2 : ¬(c = btick ∧ (p0 ++ [btick, btick]).take 2 = [btick, btick]) := by
            rw [take2_transfer p0 r0, ← hcs]
            exact hc
          rw [show (c :: p0) ++ [btick, btick] = c :: (p0 ++ [btick, btick]) from rfl,
            findFence, if_neg hc2, hclean]

/-- Scan failure is exactly fence-freeness. -/
theorem ff_none_iff (cs : List Char) : findFence cs = none ↔ ¬ bt3 <:+: cs := by
  induction cs with
  | nil =>
    simp only [findFence, true_iff]
    intro h
    cases List.eq_nil_of_infix_nil h
  | cons c cs ih =>
    have hstep : findFence (c :: cs) = none ↔
        (¬(c = btick ∧ cs.take 2 = [btick, btick]) ∧ findFence cs = none) := by
      by_cases hc : c = btick ∧ cs.take 2 = [btick, btick]
      · rw [findFence, if_pos hc]
        simp [hc]
      · rw [findFence, if_neg hc]
        cases hf : findFence cs with
        | none => simp [hc]
        | some pr => simp [hc, hf]
    rw [hstep, ih]
    have hpre : bt3 <+: (c :: cs) ↔ (c = btick ∧ cs.take 2 = [btick, btick]) := by
      constructor
      · intro h
        rw [show bt3 = btick :: [btick, btick] from rfl] at h
        rw [List.cons_prefix_cons] at h
        refine ⟨h.1.symm, ?_⟩
        have := (List.prefix_iff_eq_take).mp h.2
        simpa using this.symm
      · intro h
        rw [show bt3 = btick :: [btick, btick] from rfl, List.cons_prefix_cons]
        refine ⟨h.1.symm, ?_⟩
        rw [List.prefix_iff_eq_take]
        simpa using h.2.symm
    rw [List.infix_cons_iff, hpre]
    tauto

/-- A fence cannot straddle a non-backtick character. -/
theorem infix_bt3_split (l m : List Char) (x : Char) (hx : x ≠ btick)
    (h : bt3 <:+: (l ++ x :: m)) : bt3 <:+: l ∨ bt3 <:+: m := by
  induction l with
  | nil =>
    rcases List.infix_cons_iff.mp h with hp | hi
    · rw [show bt3 = btick :: [btick, btick] from rfl, List.cons_prefix_cons] at hp
      exact absurd hp.1.symm hx
    · exact Or.inr hi
  | cons c l ih =>
    rcases List.infix_cons_iff.mp (by simpa using h) with hp | hi
    · rw [show bt3 = btick :: [btick, btick] from rfl, List.cons_prefix_cons] at hp
      obtain ⟨hcb, hp2⟩ := hp
      match l, hp2 with
      | [], hp2 =>
        simp only [List.nil_append] at hp2
        rw [List.cons_prefix_cons] at hp2
        exact absurd hp2.1.symm hx
      | [d], hp2 =>
        simp only [List.singleton_append] at hp2
        rw [List.cons_prefix_cons, List.cons_prefix_cons] at hp2
        exact absurd hp2.2.1.symm hx
      | d :: e :: l3, hp2 =>
        simp only [List.cons_append] at hp2
        rw [List.cons_prefix_cons, List.cons_prefix_cons] at hp2
        refine Or.inl ?_
        refine List.IsPrefix.isInfix ?_
        rw [show bt3 = btick :: btick :: btick :: ([] : List Char) from rfl]
        rw [List.cons_prefix_cons, List.cons_prefix_cons, List.cons_prefix_cons]
        exact ⟨hcb, hp2.1, hp2.2.1, List.nil_prefix⟩
    · rcases ih hi with hl | hm
      · exact Or.inl (hl.trans (List.IsSuffix.isInfix (List.suffix_cons c l)))
      · exact Or.inr hm

/-- The trimmed code span sits inside the captured span. -/
theorem trimCode_within (code : List Char) : trimCode code <:+: code := by
  unfold trimCode
  by_cases h1 : code.head? = some '\n'
  · rw [if_pos h1]
    have hsfx : code.tail <:+ code := List.tail_suffix code
    by_cases h2 : code.tail.getLast? = some '\n'
    · rw [if_pos h2]
      exact (List.dropLast_prefix code.tail).isInfix.trans hsfx.isInfix
    · rw [if_neg h2]
      exact hsfx.isInfix
  · rw [if_neg h1]
    by_cases h2 : code.getLast? = some '\n'
    · rw [if_pos h2]
      exact (List.dropLast_prefix code).isInfix
    · rw [if_neg h2]

/-- The normalized span between the rewritten fences is clean: a fence-free
lazy capture stays fence-free after trimming and re-flanking with newlines. -/
theorem span_clean (code : List Char)
    (h : findFence (code ++ [btick, btick]) = none) :
    findFence (('\n' :: trimCode code ++ ['\n']) ++ [btick, btick]) = none := by
  rw [ff_none_iff] at h ⊢
  intro hin
  apply h
  have hshape : ('\n' :: trimCode code ++ ['\n']) ++ [btick, btick] =
      '\n' :: (trimCode code ++ '\n' :: [btick, btick]) := by simp
  rw [hshape] at hin
  rcases List.infix_cons_iff.mp hin with hp | hi
  · rw [show bt3 = btick :: [btick, btick] from rfl, List.cons_prefix_cons] at hp
    exact absurd hp.1.symm (by decide)
  · rcases infix_bt3_split (trimCode code) [btick, btick] '\n' (by decide) hi with hl | hm
    · exact ((hl.trans (trimCode_within code)).trans
        (List.prefix_append code [btick, btick]).isInfix)
    · have := hm.length_le
      simp [bt3] at this


/-- Re-trimming the normalized span gives the span back. -/
theorem trimCode_normalized (x : List Char) :
    trimCode ('\n' :: x ++ ['\n']) = x := by
  unfold trimCode
  simp [List.getLast?_concat, List.dropLast_concat]

/-- The scan for the language tag stops exactly at the newline after it. -/
theorem lang_scan (lang r : List Char) (h : ∀ c ∈ lang, isWordChar c = true) :
    (lang ++ '\n' :: r).takeWhile isWordChar = lang ∧
      (lang ++ '\n' :: r).dropWhile isWordChar = '\n' :: r := by
  induction lang with
  | nil =>
    have hnl : isWordChar '\n' = false := by decide
    constructor
    · rw [List.nil_append, List.takeWhile_cons]
      simp [hnl]
    · rw [List.nil_append, List.dropWhile_cons]
      simp [hnl]
  | cons c t ih =>
    have hc := h c (List.mem_cons_self c t)
    obtain ⟨ih1, ih2⟩ := ih (fun d hd => h d (List.mem_cons_of_mem c hd))
    constructor
    · rw [List.cons_append, List.takeWhile_cons, hc]
      simp [ih1]
    · rw [List.cons_append, List.dropWhile_cons, hc]
      simpa using ih2

theorem dropWhile_all_false {p : Char → Bool} (l : List Char)
    (h : ∀ c ∈ l, p c = false) : l.dropWhile p = l := by
  cases l with
  | nil => rfl
  | cons c t =>
    rw [List.dropWhile_cons, h c (List.mem_cons_self c t)]
    simp

/-- Word characters are not JS whitespace. -/
theorem isWordChar_not_space (c : Char) (h : isWordChar c = true) :
    isJsSpace c = false := by
  cases hs : isJsSpace c with
  | false => rfl
  | true =>
    exfalso
    simp only [isWordChar, decide_eq_true_eq] at h
    simp only [isJsSpace, decide_eq_true_eq] at hs
    omega

/-- `language.trim()` is a no-op on a \w* capture. -/
theorem trimLang_of_word (lang : List Char)
    (h : ∀ c ∈ lang, isWordChar c = true) : trimLang lang = lang := by
  unfold trimLang
  rw [dropWhile_all_false lang (fun c hc => isWordChar_not_space c (h c hc))]
  rw [dropWhile_all_false lang.reverse
    (fun c hc => isWordChar_not_space c (h c (List.mem_reverse.mp hc)))]
  exact List.reverse_reverse lang

/-- Unfolding: no fence means no rewrite. -/
theorem rcb_none (cs : List Char) (h : findFence cs = none) :
    replaceCodeBlocks cs = cs := by
  unfold replaceCodeBlocks
  split
  · rfl
  next p r heq =>
    rw [h] at heq
    cases heq

/-- Unfolding: an unclosed fence means no rewrite. -/
theorem rcb_unclosed (cs pre rest : List Char)
    (h1 : findFence cs = some (pre, rest))
    (h2 : findFence (rest.dropWhile isWordChar) = none) :
    replaceCodeBlocks cs = cs := by
  conv_lhs => unfold replaceCodeBlocks
  split
  · rfl
  next p r heq =>
    rw [h1] at heq
    injection heq with heq2
    obtain ⟨rfl, rfl⟩ : pre = p ∧ rest = r :=
      ⟨congrArg Prod.fst heq2, congrArg Prod.snd heq2⟩
    show (match h2 : findFence (rest.dropWhile isWordChar) with
      | none => cs
      | some (code, rest2) =>
        pre ++ fenceBlock (trimLang (rest.takeWhile isWordChar)) (trimCode code) ++
          replaceCodeBlocks rest2) = _
    split
    · rfl
    next c r2 heq3 =>
      rw [h2] at heq3
      cases heq3

/-- Unfolding: a matched fence pair rewrites the span and continues after. -/
theorem rcb_step (cs pre rest code rest2 : List Char)
    (h1 : findFence cs = some (pre, rest))
    (h2 : findFence (rest.dropWhile isWordChar) = some (code, rest2)) :
    replaceCodeBlocks cs =
      pre ++ fenceBlock (trimLang (rest.takeWhile isWordChar)) (trimCode code) ++
        replaceCodeBlocks rest2 := by
  conv_lhs => unfold replaceCodeBlocks
  split
  next heq =>
    rw [h1] at heq
    cases heq
  next p r heq =>
    rw [h1] at heq
    injection heq with heq2
    obtain ⟨rfl, rfl⟩ : pre = p ∧ rest = r :=
      ⟨congrArg Prod.fst heq2, congrArg Prod.snd heq2⟩
    show (match h2 : findFence (rest.dropWhile isWordChar) with
      | none => cs
      | some (code, rest2) =>
        pre ++ fenceBlock (trimLang (rest.takeWhile isWordChar)) (trimCode code) ++
          replaceCodeBlocks rest2) = _
    split
    next heq3 =>
      rw [h2] at heq3
      cases heq3
    next c r2 heq3 =>
      rw [h2] at heq3
      injection heq3 with heq4
      obtain ⟨rfl, rfl⟩ : code = c ∧ rest2 = r2 :=
        ⟨congrArg Prod.fst heq4, congrArg Prod.snd heq4⟩
      rfl

/-- The rewrite of the character list is idempotent. -/
theorem replaceCodeBlocks_fix (cs : List Char) :
    replaceCodeBlocks (replaceCodeBlocks cs) = replaceCodeBlocks cs := by
  suffices key : ∀ n (cs : List Char), cs.length = n →
      replaceCodeBlocks (replaceCodeBlocks cs) = replaceCodeBlocks cs from
    key cs.length cs rfl
  intro n
  induction n using Nat.strong_induction_on with
  | _ n ih =>
  intro cs hn
  cases h1 : findFence cs with
  | none =>
    rw [rcb_none cs h1, rcb_none cs h1]
  | some pr =>
    obtain ⟨pre, rest⟩ := pr
    cases h2 : findFence (rest.dropWhile isWordChar) with
    | none =>
      rw [rcb_unclosed cs pre rest h1 h2, rcb_unclosed cs pre rest h1 h2]
    | some cr =>
      obtain ⟨code, rest2⟩ := cr
      obtain ⟨hcs, hpreclean⟩ := ff_split h1
      obtain ⟨hrest1, hcodeclean⟩ := ff_split h2
      have hlangall : ∀ c ∈ rest.takeWhile isWordChar, isWordChar c = true :=
        fun c hc => List.mem_takeWhile_imp hc
      have hltrim : trimLang (rest.takeWhile isWordChar) = rest.takeWhile isWordChar :=
        trimLang_of_word _ hlangall
      rw [rcb_step cs pre rest code rest2 h1 h2, hltrim]
      have hO : pre ++ fenceBlock (rest.takeWhile isWordChar) (trimCode code) ++
            replaceCodeBlocks rest2 =
          pre ++ bt3 ++ ((rest.takeWhile isWordChar) ++ '\n' ::
            (trimCode code ++ '\n' :: (bt3 ++ replaceCodeBlocks rest2))) := by
        simp [fenceBlock, bt3, List.append_assoc]
      have hf1 : findFence (pre ++ fenceBlock (rest.takeWhile isWordChar)
            (trimCode code) ++ replaceCodeBlocks rest2) =
          some (pre, (rest.takeWhile isWordChar) ++ '\n' ::
            (trimCode code ++ '\n' :: (bt3 ++ replaceCodeBlocks rest2))) := by
        rw [hO]
        exact ff_prepend pre hpreclean _
      have hscan := lang_scan (rest.takeWhile isWordChar)
        (trimCode code ++ '\n' :: (bt3 ++ replaceCodeBlocks rest2)) hlangall
      have hmid : findFence ('\n' ::
            (trimCode code ++ '\n' :: (bt3 ++ replaceCodeBlocks rest2))) =
          some ('\n' :: trimCode code ++ ['\n'], replaceCodeBlocks rest2) := by
        have hc := span_clean code hcodeclean
        have hpp := ff_prepend ('\n' :: trimCode code ++ ['\n']) hc
          (replaceCodeBlocks rest2)
        rw [show ('\n' :: trimCode code ++ ['\n']) ++ bt3 ++ replaceCodeBlocks rest2 =
          '\n' :: (trimCode code ++ '\n' :: (bt3 ++ replaceCodeBlocks rest2)) by
            simp [bt3]] at hpp
        exact hpp
      rw [rcb_step (pre ++ fenceBlock (rest.takeWhile isWordChar) (trimCode code) ++
          replaceCodeBlocks rest2) pre
        ((rest.takeWhile isWordChar) ++ '\n' ::
          (trimCode code ++ '\n' :: (bt3 ++ replaceCodeBlocks rest2)))
        ('\n' :: trimCode code ++ ['\n']) (replaceCodeBlocks rest2) hf1
        (by rw [hscan.2]; exact hmid)]
      rw [hscan.1, hltrim, trimCode_normalized (trimCode code)]
      have hlen2 : rest2.length < n := by
        rw [← hn]
        have e1 := findFence_length h1
        have e2 := findFence_length h2
        have e3 : (rest.dropWhile isWordChar).length ≤ rest.length :=
          (List.dropWhile_sublist _).length_le
        omega
      rw [ih rest2.length hlen2 rest2 rfl]

/-- C7: MarkdownGenerator.processText is idempotent: normalizing code blocks
twice yields the same text as normalizing once, for every input. -/
theorem processText_idempotent (s : String) :
    processText (processText s) = processText s := by
  unfold processText
  by_cases hs : s = ""
  · simp [hs]
  · rw [if_neg hs]
    by_cases hz : (⟨replaceCodeBlocks s.data⟩ : String) = ""
    · rw [if_pos hz]
      exact hz.symm
    · rw [if_neg hz]
      exact congrArg String.mk (replaceCodeBlocks_fix s.data)

end ClaudeExport
